import Mathlib

/-
Shallow embedding of the graph-execution core of the repository
(src/orchestration/dag.py): the Node data class, the DAG constructor with its
depth-first cycle check, and the synchronous ready-set run loop.  Python dicts
are modelled as insertion-ordered association lists (update-in-place keeps the
first-occurrence position of a key, as Python dicts do); node work functions
are black-box Lean functions from a context dict to an output value of type V.
Recursion that Python realises with a while loop or with recursive calls is
given an explicit fuel argument so that every definition is structurally
recursive and computable; the fuel values chosen are proved sufficient, and the
fuel-exhaustion outcomes are proved unreachable where a claim depends on it.
The run loop additionally records a ghost trace of every work-function
invocation (pass number, node id, the context argument passed, the output);
the trace does not influence control flow.
-/

namespace Virto

/-- A unit of work: mirrors the Node dataclass (id, fn, depends_on). -/
structure Node (V : Type) where
  id : String
  fn : List (String × V) → V
  depends_on : List String

/-- First-match lookup in an association list: Python dict indexing d[k]. -/
def dlookup {α : Type} : List (String × α) → String → Option α
  | [], _ => none
  | (k', v) :: rest, k => if k' = k then some v else dlookup rest k

/-- Python dict assignment d[k] = v: update in place if the key exists
(keeping its position), otherwise append at the end. -/
def dictInsert {α : Type} : List (String × α) → String → α → List (String × α)
  | [], k, v => [(k, v)]
  | (k', v') :: rest, k, v =>
    if k' = k then (k', v) :: rest else (k', v') :: dictInsert rest k v

/-- The dict comprehension in DAG.__init__: an id-to-Node mapping built by
successive dict assignment (last write wins on duplicate ids). -/
def buildNodes {V : Type} (nodes : List (Node V)) : List (String × Node V) :=
  nodes.foldl (fun m n => dictInsert m n.id n) []

/-- The dict-display merge at the work-function call site: a fresh dict
holding context updated with every entry of results. -/
def mergeDicts {α : Type} (c r : List (String × α)) : List (String × α) :=
  r.foldl (fun acc kv => dictInsert acc kv.1 kv.2) c

/-- Errors DAG construction can raise: cycleDetected is the
ValueError("cycle detected"), keyError is the KeyError escaping from the
self.nodes[nid] lookup on an undeclared dependency id.  fuelExhausted is an
artifact of the fuel-indexed embedding of the recursive traversal and is
proved unreachable. -/
inductive DagError where
  | cycleDetected : DagError
  | keyError : String → DagError
  | fuelExhausted : DagError
deriving DecidableEq

/-- Outcome of the depth-first traversal: the threaded (seen, stack) sets on
normal return, a raised error, or fuel exhaustion (embedding artifact). -/
inductive VisitOut where
  | ok : List String → List String → VisitOut
  | err : DagError → VisitOut
  | fuelOut : VisitOut
deriving DecidableEq

/-- The depth-first traversal of DAG._check_cycles.  Processing a work list of
node ids with the mutable seen/stack sets threaded through: a node already on
the stack raises the cycle error, a node already seen is skipped, otherwise
the node is pushed on both sets, its dependency list is traversed recursively,
and the node is removed from the stack afterwards.  The top-level call
processes all keys of the node mapping, matching the for-loop over
self.nodes.keys() with seen and stack persisting across iterations.  Fuel
decreases at every step so the recursion is structural. -/
def visitList {V : Type} (m : List (String × Node V)) :
    Nat → List String → List String → List String → VisitOut
  | 0, _, _, _ => .fuelOut
  | _ + 1, [], seen, stack => .ok seen stack
  | fuel + 1, nid :: rest, seen, stack =>
    if nid ∈ stack then .err .cycleDetected
    else if nid ∈ seen then visitList m fuel rest seen stack
    else
      match dlookup m nid with
      | none => .err (.keyError nid)
      | some node =>
        match visitList m fuel node.depends_on (nid :: seen) (nid :: stack) with
        | .ok seen' stack' => visitList m fuel rest seen' (stack'.erase nid)
        | r => r

/-- Fuel bound for the traversal: for every entry of the mapping whose key is
not yet seen, one unit plus the length of its dependency list. -/
def visitBound {V : Type} : List (String × Node V) → List String → Nat
  | [], _ => 0
  | p :: rest, seen =>
    (if p.1 ∈ seen then 0 else p.2.depends_on.length + 1) + visitBound rest seen

/-- DAG._check_cycles: run the traversal over every key of the node mapping
with initially empty seen and stack sets. -/
def checkCycles {V : Type} (m : List (String × Node V)) : Except DagError Unit :=
  match visitList m (m.length + visitBound m [] + 1) (m.map Prod.fst) [] [] with
  | .ok _ _ => .ok ()
  | .err e => .error e
  | .fuelOut => .error .fuelExhausted

/-- The DAG class: its only field is the id-to-Node mapping. -/
structure DAG (V : Type) where
  nodes : List (String × Node V)

/-- DAG.__init__: build the node mapping, then run the cycle check; any error
raised by the check aborts construction. -/
def DAG.init {V : Type} (nodes : List (Node V)) : Except DagError (DAG V) :=
  match checkCycles (buildNodes nodes) with
  | .ok _ => .ok ⟨buildNodes nodes⟩
  | .error e => .error e

/-- Errors DAG.run can raise: noProgress is the
RuntimeError("DAG could not make progress"); fuelExhausted is an artifact of
the fuel-indexed embedding of the while loop, proved unreachable. -/
inductive RunError where
  | noProgress : RunError
  | fuelExhausted : RunError
deriving DecidableEq

/-- Ghost record of one work-function invocation: the pass number, the node
id, the context dict the function was applied to, and its output. -/
structure TraceEntry (V : Type) where
  passNo : Nat
  nid : String
  ctxArg : List (String × V)
  out : V
deriving DecidableEq

/-- The mutable locals of DAG.run (context, results, done) threaded as
explicit state, extended with the ghost invocation trace. -/
structure RunState (V : Type) where
  context : List (String × V)
  results : List (String × V)
  done : List String
  trace : List (TraceEntry V)
deriving DecidableEq

/-- State at the top of DAG.run: results = {}, done = set(), empty trace. -/
def initState {V : Type} (context : List (String × V)) : RunState V :=
  ⟨context, [], [], []⟩

/-- One pass of the run loop: the for-loop over self.nodes.items().  A node
already done is skipped; a node whose every dependency is done is executed
immediately on the merge of context and the results accumulated so far, its
output is stored, it is marked done, and progress is set. -/
def runPass {V : Type} (p : Nat) :
    List (String × Node V) → RunState V → Bool → RunState V × Bool
  | [], st, progress => (st, progress)
  | (nid, node) :: rest, st, progress =>
    if nid ∈ st.done then runPass p rest st progress
    else if ∀ d ∈ node.depends_on, d ∈ st.done then
      let arg := mergeDicts st.context st.results
      let out := node.fn arg
      runPass p rest
        ⟨st.context, dictInsert st.results nid out, nid :: st.done,
          st.trace ++ [⟨p, nid, arg, out⟩]⟩ true
    else runPass p rest st progress

/-- The while loop of DAG.run: while fewer nodes are done than exist, run a
pass; raise the no-progress error if a pass executed nothing.  Fuel is an
embedding artifact; DAG.run supplies enough for any terminating run. -/
def runLoop {V : Type} (m : List (String × Node V)) :
    Nat → Nat → RunState V → Except RunError (RunState V)
  | 0, _, _ => .error .fuelExhausted
  | fuel + 1, p, st =>
    if st.done.length < m.length then
      match runPass p m st false with
      | (st', true) => runLoop m fuel (p + 1) st'
      | (_, false) => .error .noProgress
    else .ok st

/-- DAG.run: run the loop from the initial state and return results. -/
def DAG.run {V : Type} (dag : DAG V) (context : List (String × V)) :
    Except RunError (List (String × V)) :=
  (runLoop dag.nodes (dag.nodes.length + 1) 0 (initState context)).map
    (fun st => st.results)

/-- Dependency edge of a node mapping: a depends on b when a's node declares
b in its depends_on list. -/
def edge {V : Type} (m : List (String × Node V)) (a b : String) : Prop :=
  ∃ node, dlookup m a = some node ∧ b ∈ node.depends_on

/-- The dependency relation of a node mapping is acyclic. -/
def AcyclicM {V : Type} (m : List (String × Node V)) : Prop :=
  ∀ a, ¬ Relation.TransGen (edge m) a a

/-- Every declared dependency id of a node mapping resolves to a key. -/
def ResolvableM {V : Type} (m : List (String × Node V)) : Prop :=
  ∀ p ∈ m, ∀ d ∈ p.2.depends_on, (dlookup m d).isSome = true

/-- Dependency edge of a raw node sequence (before the mapping is built). -/
def nodeEdge {V : Type} (ns : List (Node V)) (a b : String) : Prop :=
  ∃ n ∈ ns, n.id = a ∧ b ∈ n.depends_on

/-- The dependency relation of a raw node sequence is acyclic. -/
def AcyclicNs {V : Type} (ns : List (Node V)) : Prop :=
  ∀ a, ¬ Relation.TransGen (nodeEdge ns) a a

/-- Every declared dependency id of a raw node sequence names a node of it. -/
def ResolvableNs {V : Type} (ns : List (Node V)) : Prop :=
  ∀ n ∈ ns, ∀ d ∈ n.depends_on, ∃ n2 ∈ ns, n2.id = d

/-- Specification-side description of key order: the order in which ids first
appear in the input sequence (used to compare with the order of the built
node mapping). -/
def firstOccur : List String → List String :=
  fun l => l.foldl (fun acc i => if i ∈ acc then acc else acc ++ [i]) []


/-! ### Association-list (Python dict) lemmas -/

theorem dlookup_dictInsert_self {α : Type} (m : List (String × α)) (k : String) (v : α) :
    dlookup (dictInsert m k v) k = some v := by
  induction m with
  | nil => simp [dictInsert, dlookup]
  | cons p rest ih =>
    obtain ⟨k', v'⟩ := p
    by_cases h : k' = k
    · simp [dictInsert, if_pos h, dlookup, h]
    · simp [dictInsert, if_neg h, dlookup, h, ih]

theorem dlookup_dictInsert_ne {α : Type} (m : List (String × α)) {k k2 : String} (v : α)
    (h : k ≠ k2) : dlookup (dictInsert m k v) k2 = dlookup m k2 := by
  induction m with
  | nil => simp [dictInsert, dlookup, h]
  | cons p rest ih =>
    obtain ⟨k', v'⟩ := p
    by_cases hp : k' = k
    · subst hp
      rw [dictInsert, if_pos rfl, dlookup, dlookup, if_neg h, if_neg h]
    · rw [dictInsert, if_neg hp]
      by_cases hp2 : k' = k2
      · rw [dlookup, if_pos hp2, dlookup, if_pos hp2]
      · rw [dlookup, if_neg hp2, dlookup, if_neg hp2, ih]

theorem mem_map_fst_dictInsert {α : Type} (m : List (String × α)) (k a : String) (v : α) :
    a ∈ (dictInsert m k v).map Prod.fst ↔ a = k ∨ a ∈ m.map Prod.fst := by
  induction m with
  | nil => simp [dictInsert]
  | cons p rest ih =>
    obtain ⟨k', v'⟩ := p
    by_cases hp : k' = k
    · subst hp
      rw [dictInsert, if_pos rfl]
      simp only [List.map_cons, List.mem_cons]
      tauto
    · rw [dictInsert, if_neg hp]
      simp only [List.map_cons, List.mem_cons, ih]
      tauto

theorem map_fst_dictInsert_of_mem {α : Type} {m : List (String × α)} {k : String} (v : α)
    (h : k ∈ m.map Prod.fst) : (dictInsert m k v).map Prod.fst = m.map Prod.fst := by
  induction m with
  | nil => simp at h
  | cons p rest ih =>
    obtain ⟨k', v'⟩ := p
    by_cases hp : k' = k
    · rw [dictInsert, if_pos hp]
      simp [hp]
    · rw [dictInsert, if_neg hp]
      rw [List.map_cons, List.mem_cons] at h
      rcases h with h1 | h1
      · exact absurd h1.symm hp
      · rw [List.map_cons, List.map_cons, ih h1]

theorem dictInsert_of_not_mem {α : Type} {m : List (String × α)} {k : String} (v : α)
    (h : k ∉ m.map Prod.fst) : dictInsert m k v = m ++ [(k, v)] := by
  induction m with
  | nil => simp [dictInsert]
  | cons p rest ih =>
    obtain ⟨k', v'⟩ := p
    rw [List.map_cons, List.mem_cons] at h
    push_neg at h
    have hp : k' ≠ k := fun hh => h.1 hh.symm
    rw [dictInsert, if_neg hp, ih h.2]
    rfl

theorem nodup_map_fst_dictInsert {α : Type} {m : List (String × α)} (k : String) (v : α)
    (h : (m.map Prod.fst).Nodup) : ((dictInsert m k v).map Prod.fst).Nodup := by
  by_cases hk : k ∈ m.map Prod.fst
  · rw [map_fst_dictInsert_of_mem v hk]
    exact h
  · rw [dictInsert_of_not_mem v hk, List.map_append]
    refine List.Nodup.append h (by simp) ?_
    intro a ha hb
    simp at hb
    subst hb
    exact hk ha

theorem dlookup_isSome_iff {α : Type} (m : List (String × α)) (k : String) :
    (dlookup m k).isSome = true ↔ k ∈ m.map Prod.fst := by
  induction m with
  | nil => simp [dlookup]
  | cons p rest ih =>
    obtain ⟨k', v'⟩ := p
    by_cases hp : k' = k
    · subst hp
      simp [dlookup]
    · rw [dlookup, if_neg hp, List.map_cons, List.mem_cons, ih]
      have : ¬ k = k' := fun hh => hp hh.symm
      tauto

theorem dlookup_eq_none_iff {α : Type} (m : List (String × α)) (k : String) :
    dlookup m k = none ↔ k ∉ m.map Prod.fst := by
  rw [← dlookup_isSome_iff]
  cases dlookup m k <;> simp

theorem dlookup_mem {α : Type} {m : List (String × α)} {k : String} {v : α}
    (h : dlookup m k = some v) : (k, v) ∈ m := by
  induction m with
  | nil => simp [dlookup] at h
  | cons p rest ih =>
    obtain ⟨k', v'⟩ := p
    by_cases hp : k' = k
    · rw [dlookup, if_pos hp] at h
      rw [Option.some.injEq] at h
      subst hp
      subst h
      exact List.mem_cons_self _ _
    · rw [dlookup, if_neg hp] at h
      exact List.mem_cons_of_mem _ (ih h)

theorem mem_dlookup {α : Type} {m : List (String × α)} {k : String} {v : α}
    (hn : (m.map Prod.fst).Nodup) (h : (k, v) ∈ m) : dlookup m k = some v := by
  induction m with
  | nil => simp at h
  | cons p rest ih =>
    obtain ⟨k', v'⟩ := p
    rw [List.map_cons, List.nodup_cons] at hn
    rcases List.mem_cons.mp h with h1 | h1
    · rw [← h1]
      simp [dlookup]
    · have hk : k' ≠ k := by
        intro hh
        subst hh
        exact hn.1 (List.mem_map.mpr ⟨(k', v), h1, rfl⟩)
      rw [dlookup, if_neg hk]
      exact ih hn.2 h1

theorem mem_map_fst_mergeDicts {α : Type} (c r : List (String × α)) (a : String) :
    a ∈ (mergeDicts c r).map Prod.fst ↔ a ∈ c.map Prod.fst ∨ a ∈ r.map Prod.fst := by
  induction r generalizing c with
  | nil => simp [mergeDicts]
  | cons kv rest ih =>
    show a ∈ (mergeDicts (dictInsert c kv.1 kv.2) rest).map Prod.fst ↔ _
    rw [ih, mem_map_fst_dictInsert]
    simp only [List.map_cons, List.mem_cons]
    tauto

/-! ### buildNodes lemmas -/

theorem dlookup_foldl_dictInsert {V : Type} (ns : List (Node V)) (m : List (String × Node V))
    (k : String) :
    dlookup (ns.foldl (fun m n => dictInsert m n.id n) m) k =
      match ns.reverse.find? (fun n => n.id == k) with
      | some n => some n
      | none => dlookup m k := by
  induction ns generalizing m with
  | nil => simp
  | cons n rest ih =>
    rw [List.foldl_cons, ih, List.reverse_cons, List.find?_append]
    rcases hf : rest.reverse.find? (fun n2 => n2.id == k) with _ | n2
    · by_cases h : n.id = k
      · subst h
        simp [hf, List.find?_cons, Option.or, dlookup_dictInsert_self]
      · have hb : (n.id == k) = false := by simp [h]
        simp [hf, List.find?_cons, hb, Option.or, dlookup_dictInsert_ne _ _ h]
    · simp [hf, Option.or]

theorem dlookup_buildNodes {V : Type} (ns : List (Node V)) (k : String) :
    dlookup (buildNodes ns) k = ns.reverse.find? (fun n => n.id == k) := by
  rw [buildNodes, dlookup_foldl_dictInsert]
  cases hf : ns.reverse.find? (fun n => n.id == k) <;> simp [dlookup]

theorem dlookup_buildNodes_mem {V : Type} {ns : List (Node V)} {k : String} {n : Node V}
    (h : dlookup (buildNodes ns) k = some n) : n ∈ ns ∧ n.id = k := by
  rw [dlookup_buildNodes] at h
  refine ⟨List.mem_reverse.mp (List.mem_of_find?_eq_some h), ?_⟩
  have := List.find?_some h
  simpa using this

theorem dlookup_buildNodes_isSome {V : Type} (ns : List (Node V)) (k : String) :
    (dlookup (buildNodes ns) k).isSome = true ↔ ∃ n ∈ ns, n.id = k := by
  constructor
  · intro h
    obtain ⟨n, hn⟩ := Option.isSome_iff_exists.mp h
    obtain ⟨h1, h2⟩ := dlookup_buildNodes_mem hn
    exact ⟨n, h1, h2⟩
  · intro ⟨n, hn, hk⟩
    rw [dlookup_buildNodes]
    rcases hf : ns.reverse.find? (fun n2 => n2.id == k) with _ | n2
    · rw [List.find?_eq_none] at hf
      exact absurd (by simpa using hk) (hf n (List.mem_reverse.mpr hn))
    · simp [hf]

theorem buildNodes_nodup_aux {V : Type} (ns : List (Node V)) (m : List (String × Node V))
    (h : (m.map Prod.fst).Nodup) :
    ((ns.foldl (fun m n => dictInsert m n.id n) m).map Prod.fst).Nodup := by
  induction ns generalizing m with
  | nil => exact h
  | cons n rest ih => exact ih _ (nodup_map_fst_dictInsert _ _ h)

theorem buildNodes_nodup {V : Type} (ns : List (Node V)) :
    ((buildNodes ns).map Prod.fst).Nodup :=
  buildNodes_nodup_aux ns [] (by simp)

theorem buildNodes_map_fst_aux {V : Type} (ns : List (Node V)) (m : List (String × Node V)) :
    (ns.foldl (fun m n => dictInsert m n.id n) m).map Prod.fst =
      (ns.map (fun n => n.id)).foldl (fun acc i => if i ∈ acc then acc else acc ++ [i])
        (m.map Prod.fst) := by
  induction ns generalizing m with
  | nil => simp
  | cons n rest ih =>
    simp only [List.foldl_cons, List.map_cons, ih]
    by_cases h : n.id ∈ m.map Prod.fst
    · rw [map_fst_dictInsert_of_mem _ h, if_pos h]
    · rw [dictInsert_of_not_mem _ h, if_neg h]
      simp

theorem buildNodes_map_fst {V : Type} (ns : List (Node V)) :
    (buildNodes ns).map Prod.fst = firstOccur (ns.map (fun n => n.id)) := by
  rw [buildNodes, buildNodes_map_fst_aux, firstOccur]
  simp

theorem mem_buildNodes_dlookup {V : Type} {ns : List (Node V)} {p : String × Node V}
    (h : p ∈ buildNodes ns) : dlookup (buildNodes ns) p.1 = some p.2 :=
  mem_dlookup (buildNodes_nodup ns) h

/-! ### Shape of the depth-first traversal -/

theorem visitList_shape {V : Type} (m : List (String × Node V)) :
    ∀ (fuel : Nat) (todo seen stack seen' stack' : List String),
      visitList m fuel todo seen stack = .ok seen' stack' →
      stack' = stack ∧ (∀ s ∈ seen, s ∈ seen') ∧ (∀ t ∈ todo, t ∈ seen') := by
  intro fuel
  induction fuel with
  | zero =>
    intro todo seen stack seen' stack' h
    simp only [visitList] at h
    exact VisitOut.noConfusion h
  | succ fuel ih =>
    intro todo seen stack seen' stack' h
    cases todo with
    | nil =>
      simp only [visitList] at h
      injection h with h1 h2
      subst h1
      subst h2
      exact ⟨rfl, fun s hs => hs, fun t ht => absurd ht (List.not_mem_nil t)⟩
    | cons nid rest =>
      simp only [visitList] at h
      by_cases h1 : nid ∈ stack
      · rw [if_pos h1] at h
        exact VisitOut.noConfusion h
      · rw [if_neg h1] at h
        by_cases h2 : nid ∈ seen
        · rw [if_pos h2] at h
          obtain ⟨e1, e2, e3⟩ := ih rest seen stack seen' stack' h
          refine ⟨e1, e2, ?_⟩
          intro t ht
          rcases List.mem_cons.mp ht with h3 | h3
          · exact h3 ▸ e2 nid h2
          · exact e3 t h3
        · rw [if_neg h2] at h
          cases hl : dlookup m nid with
          | none =>
            simp only [hl] at h
            exact VisitOut.noConfusion h
          | some node =>
            simp only [hl] at h
            cases hv : visitList m fuel node.depends_on (nid :: seen) (nid :: stack) with
            | ok s1 k1 =>
              simp only [hv] at h
              obtain ⟨e1, e2, e3⟩ := ih _ _ _ _ _ hv
              subst e1
              rw [List.erase_cons_head] at h
              obtain ⟨f1, f2, f3⟩ := ih _ _ _ _ _ h
              refine ⟨f1, fun s hs => f2 s (e2 s (List.mem_cons_of_mem _ hs)), ?_⟩
              intro t ht
              rcases List.mem_cons.mp ht with h3 | h3
              · exact h3 ▸ f2 nid (e2 nid (List.mem_cons_self _ _))
              · exact f3 t h3
            | err e =>
              simp only [hv] at h
              exact VisitOut.noConfusion h
            | fuelOut =>
              simp only [hv] at h
              exact VisitOut.noConfusion h


/-! ### Fuel sufficiency for the traversal -/

theorem visitBound_mono {V : Type} (m : List (String × Node V)) {seen seen' : List String}
    (h : ∀ s ∈ seen, s ∈ seen') : visitBound m seen' ≤ visitBound m seen := by
  induction m with
  | nil => simp [visitBound]
  | cons p rest ih =>
    by_cases h1 : p.1 ∈ seen'
    · by_cases h2 : p.1 ∈ seen
      · simpa [visitBound, h1, h2] using ih
      · simp only [visitBound, if_pos h1, if_neg h2]
        omega
    · have h2 : p.1 ∉ seen := fun hh => h1 (h _ hh)
      simp only [visitBound, if_neg h1, if_neg h2]
      omega

theorem visitBound_drop {V : Type} {m : List (String × Node V)} {seen : List String}
    {nid : String} {node : Node V} (hs : nid ∉ seen) (hl : dlookup m nid = some node) :
    node.depends_on.length + 1 + visitBound m (nid :: seen) ≤ visitBound m seen := by
  induction m with
  | nil => simp [dlookup] at hl
  | cons p rest ih =>
    obtain ⟨k', v'⟩ := p
    by_cases hp : k' = nid
    · rw [dlookup, if_pos hp] at hl
      rw [Option.some.injEq] at hl
      have e1 : (k', v').1 ∈ nid :: seen := by simp [hp]
      have e2 : (k', v').1 ∉ seen := by simp [hp, hs]
      have hmono : visitBound rest (nid :: seen) ≤ visitBound rest seen :=
        visitBound_mono rest (fun s hs2 => List.mem_cons_of_mem nid hs2)
      simp only [visitBound, if_pos e1, if_neg e2]
      subst hl
      omega
    · rw [dlookup, if_neg hp] at hl
      have ihh := ih hl
      by_cases h2 : k' ∈ seen
      · have e1 : (k', v').1 ∈ nid :: seen := by simp [h2]
        simpa [visitBound, e1, h2] using ihh
      · have e1 : (k', v').1 ∉ nid :: seen := by simp [hp, h2]
        simp only [visitBound, if_neg e1, if_neg h2] at ihh ⊢
        omega

theorem visitList_no_fuelOut {V : Type} (m : List (String × Node V)) :
    ∀ (fuel : Nat) (todo seen stack : List String),
      todo.length + visitBound m seen + 1 ≤ fuel →
      visitList m fuel todo seen stack ≠ .fuelOut := by
  intro fuel
  induction fuel with
  | zero =>
    intro todo seen stack h
    omega
  | succ fuel ih =>
    intro todo seen stack h
    cases todo with
    | nil => simp [visitList]
    | cons nid rest =>
      simp only [visitList]
      by_cases h1 : nid ∈ stack
      · rw [if_pos h1]
        exact fun hh => VisitOut.noConfusion hh
      · rw [if_neg h1]
        by_cases h2 : nid ∈ seen
        · rw [if_pos h2]
          apply ih
          simp only [List.length_cons] at h
          omega
        · rw [if_neg h2]
          cases hl : dlookup m nid with
          | none => simp
          | some node =>
            show (match visitList m fuel node.depends_on (nid :: seen) (nid :: stack) with
              | .ok seen' stack' => visitList m fuel rest seen' (stack'.erase nid)
              | r => r) ≠ VisitOut.fuelOut
            have hb := visitBound_drop h2 hl
            have hcall1 : node.depends_on.length + visitBound m (nid :: seen) + 1 ≤ fuel := by
              simp only [List.length_cons] at h
              omega
            cases hv : visitList m fuel node.depends_on (nid :: seen) (nid :: stack) with
            | ok s1 k1 =>
              show visitList m fuel rest s1 (k1.erase nid) ≠ VisitOut.fuelOut
              have hsub := (visitList_shape m fuel _ _ _ _ _ hv).2.1
              have hmono : visitBound m s1 ≤ visitBound m (nid :: seen) :=
                visitBound_mono m hsub
              apply ih
              simp only [List.length_cons] at h
              omega
            | err e => simp
            | fuelOut => exact absurd hv (ih _ _ _ hcall1)

/-! ### Error freedom and error soundness of the traversal -/

theorem visitList_no_cycleErr {V : Type} (m : List (String × Node V)) (ha : AcyclicM m) :
    ∀ (fuel : Nat) (todo seen stack : List String),
      (∀ t ∈ todo, ∀ s ∈ stack, Relation.TransGen (edge m) s t) →
      visitList m fuel todo seen stack ≠ .err .cycleDetected := by
  intro fuel
  induction fuel with
  | zero =>
    intro todo seen stack hinv
    simp [visitList]
  | succ fuel ih =>
    intro todo seen stack hinv
    cases todo with
    | nil => simp [visitList]
    | cons nid rest =>
      simp only [visitList]
      by_cases h1 : nid ∈ stack
      · exact absurd (hinv nid (List.mem_cons_self _ _) nid h1) (ha nid)
      · rw [if_neg h1]
        by_cases h2 : nid ∈ seen
        · rw [if_pos h2]
          exact ih rest seen stack (fun t ht s hs => hinv t (List.mem_cons_of_mem _ ht) s hs)
        · rw [if_neg h2]
          cases hl : dlookup m nid with
          | none => simp
          | some node =>
            show (match visitList m fuel node.depends_on (nid :: seen) (nid :: stack) with
              | .ok seen' stack' => visitList m fuel rest seen' (stack'.erase nid)
              | r => r) ≠ VisitOut.err DagError.cycleDetected
            have hinv1 : ∀ t ∈ node.depends_on, ∀ s ∈ nid :: stack,
                Relation.TransGen (edge m) s t := by
              intro t ht s hs
              rcases List.mem_cons.mp hs with h3 | h3
              · subst h3
                exact Relation.TransGen.single ⟨node, hl, ht⟩
              · exact Relation.TransGen.tail (hinv nid (List.mem_cons_self _ _) s h3)
                  ⟨node, hl, ht⟩
            cases hv : visitList m fuel node.depends_on (nid :: seen) (nid :: stack) with
            | ok s1 k1 =>
              show visitList m fuel rest s1 (k1.erase nid) ≠ VisitOut.err DagError.cycleDetected
              have hk1 := (visitList_shape m fuel _ _ _ _ _ hv).1
              rw [hk1, List.erase_cons_head]
              exact ih rest s1 stack (fun t ht s hs => hinv t (List.mem_cons_of_mem _ ht) s hs)
            | err e =>
              have hne := ih node.depends_on (nid :: seen) (nid :: stack) hinv1
              rw [hv] at hne
              exact hne
            | fuelOut => simp

theorem visitList_no_keyErr {V : Type} (m : List (String × Node V)) (hr : ResolvableM m) :
    ∀ (fuel : Nat) (todo seen stack : List String),
      (∀ t ∈ todo, (dlookup m t).isSome = true) →
      ∀ d, visitList m fuel todo seen stack ≠ .err (.keyError d) := by
  intro fuel
  induction fuel with
  | zero =>
    intro todo seen stack hinv d
    simp [visitList]
  | succ fuel ih =>
    intro todo seen stack hinv d
    cases todo with
    | nil => simp [visitList]
    | cons nid rest =>
      simp only [visitList]
      by_cases h1 : nid ∈ stack
      · rw [if_pos h1]
        simp
      · rw [if_neg h1]
        by_cases h2 : nid ∈ seen
        · rw [if_pos h2]
          exact ih rest seen stack (fun t ht => hinv t (List.mem_cons_of_mem _ ht)) d
        · rw [if_neg h2]
          cases hl : dlookup m nid with
          | none =>
            have := hinv nid (List.mem_cons_self _ _)
            rw [hl] at this
            simp at this
          | some node =>
            show (match visitList m fuel node.depends_on (nid :: seen) (nid :: stack) with
              | .ok seen' stack' => visitList m fuel rest seen' (stack'.erase nid)
              | r => r) ≠ VisitOut.err (DagError.keyError d)
            have hinv1 : ∀ t ∈ node.depends_on, (dlookup m t).isSome = true :=
              fun t ht => hr (nid, node) (dlookup_mem hl) t ht
            cases hv : visitList m fuel node.depends_on (nid :: seen) (nid :: stack) with
            | ok s1 k1 =>
              show visitList m fuel rest s1 (k1.erase nid) ≠ VisitOut.err (DagError.keyError d)
              exact ih rest s1 (k1.erase nid)
                (fun t ht => hinv t (List.mem_cons_of_mem _ ht)) d
            | err e =>
              have hne := ih node.depends_on (nid :: seen) (nid :: stack) hinv1 d
              rw [hv] at hne
              exact hne
            | fuelOut => simp

theorem visitList_keyErr_sound {V : Type} (m : List (String × Node V)) :
    ∀ (fuel : Nat) (todo seen stack : List String) (d : String),
      visitList m fuel todo seen stack = .err (.keyError d) → dlookup m d = none := by
  intro fuel
  induction fuel with
  | zero =>
    intro todo seen stack d h
    simp only [visitList] at h
    exact VisitOut.noConfusion h
  | succ fuel ih =>
    intro todo seen stack d h
    cases todo with
    | nil =>
      simp only [visitList] at h
      exact VisitOut.noConfusion h
    | cons nid rest =>
      simp only [visitList] at h
      by_cases h1 : nid ∈ stack
      · rw [if_pos h1] at h
        injection h with h'
        exact DagError.noConfusion h'
      · rw [if_neg h1] at h
        by_cases h2 : nid ∈ seen
        · rw [if_pos h2] at h
          exact ih rest seen stack d h
        · rw [if_neg h2] at h
          cases hl : dlookup m nid with
          | none =>
            simp only [hl] at h
            injection h with h'
            injection h' with h''
            exact h'' ▸ hl
          | some node =>
            simp only [hl] at h
            cases hv : visitList m fuel node.depends_on (nid :: seen) (nid :: stack) with
            | ok s1 k1 =>
              simp only [hv] at h
              exact ih rest s1 (k1.erase nid) d h
            | err e =>
              simp only [hv] at h
              injection h with h'
              subst h'
              exact ih node.depends_on (nid :: seen) (nid :: stack) d hv
            | fuelOut =>
              simp only [hv] at h
              exact VisitOut.noConfusion h

/-! ### Soundness of a successful traversal -/

/-- A node fully processed by the traversal: seen and no longer on the stack. -/
def IsBlack (seen stack : List String) (a : String) : Prop := a ∈ seen ∧ a ∉ stack

/-- Every fully processed node resolves in the mapping and has only fully
processed dependencies. -/
def BlackInv {V : Type} (m : List (String × Node V)) (seen stack : List String) : Prop :=
  ∀ a, IsBlack seen stack a →
    ∃ node, dlookup m a = some node ∧ ∀ d ∈ node.depends_on, IsBlack seen stack d

/-- No fully processed node lies on a dependency cycle. -/
def BlackAcyc {V : Type} (m : List (String × Node V)) (seen stack : List String) : Prop :=
  ∀ a, IsBlack seen stack a → ¬ Relation.TransGen (edge m) a a

theorem blackInv_congr {V : Type} {m : List (String × Node V)} {s1 k1 s2 k2 : List String}
    (he : ∀ a, IsBlack s1 k1 a ↔ IsBlack s2 k2 a) (h : BlackInv m s1 k1) :
    BlackInv m s2 k2 := by
  intro a ha
  obtain ⟨node, hl, hd⟩ := h a ((he a).mpr ha)
  exact ⟨node, hl, fun d hdm => (he d).mp (hd d hdm)⟩

theorem blackAcyc_congr {V : Type} {m : List (String × Node V)} {s1 k1 s2 k2 : List String}
    (he : ∀ a, IsBlack s1 k1 a ↔ IsBlack s2 k2 a) (h : BlackAcyc m s1 k1) :
    BlackAcyc m s2 k2 :=
  fun a ha => h a ((he a).mpr ha)

theorem black_reach {V : Type} {m : List (String × Node V)} {seen stack : List String}
    (hinv : BlackInv m seen stack) {c x : String}
    (hr : Relation.ReflTransGen (edge m) c x) (hc : IsBlack seen stack c) :
    IsBlack seen stack x := by
  induction hr with
  | refl => exact hc
  | tail hcb hbx ihb =>
    obtain ⟨node, hl, hd⟩ := hinv _ ihb
    obtain ⟨node2, hl2, hmem⟩ := hbx
    rw [hl] at hl2
    injection hl2 with he
    refine hd _ ?_
    rw [he]
    exact hmem

theorem visitList_black {V : Type} (m : List (String × Node V)) :
    ∀ (fuel : Nat) (todo seen stack seen' stack' : List String),
      visitList m fuel todo seen stack = .ok seen' stack' →
      BlackInv m seen stack → BlackAcyc m seen stack →
      BlackInv m seen' stack ∧ BlackAcyc m seen' stack ∧
        ∀ t ∈ todo, IsBlack seen' stack t := by
  intro fuel
  induction fuel with
  | zero =>
    intro todo seen stack seen' stack' h hinv hacy
    simp only [visitList] at h
    exact VisitOut.noConfusion h
  | succ fuel ih =>
    intro todo seen stack seen' stack' h hinv hacy
    cases todo with
    | nil =>
      simp only [visitList] at h
      injection h with h1 h2
      subst h1
      exact ⟨hinv, hacy, by simp⟩
    | cons nid rest =>
      simp only [visitList] at h
      by_cases h1 : nid ∈ stack
      · rw [if_pos h1] at h
        exact VisitOut.noConfusion h
      · rw [if_neg h1] at h
        by_cases h2 : nid ∈ seen
        · rw [if_pos h2] at h
          obtain ⟨i1, i2, i3⟩ := ih rest seen stack seen' stack' h hinv hacy
          refine ⟨i1, i2, ?_⟩
          intro t ht
          rcases List.mem_cons.mp ht with h3 | h3
          · subst h3
            have hsub := (visitList_shape m fuel _ _ _ _ _ h).2.1
            exact ⟨hsub t h2, h1⟩
          · exact i3 t h3
        · rw [if_neg h2] at h
          cases hl : dlookup m nid with
          | none =>
            simp only [hl] at h
            exact VisitOut.noConfusion h
          | some node =>
            simp only [hl] at h
            cases hv : visitList m fuel node.depends_on (nid :: seen) (nid :: stack) with
            | err e =>
              simp only [hv] at h
              exact VisitOut.noConfusion h
            | fuelOut =>
              simp only [hv] at h
              exact VisitOut.noConfusion h
            | ok s1 k1 =>
              simp only [hv] at h
              have hk1 := (visitList_shape m fuel _ _ _ _ _ hv).1
              have hs1 := (visitList_shape m fuel _ _ _ _ _ hv).2.1
              subst hk1
              rw [List.erase_cons_head] at h
              have htrans : ∀ a, IsBlack seen stack a ↔ IsBlack (nid :: seen) (nid :: stack) a := by
                intro a
                constructor
                · rintro ⟨ha1, ha2⟩
                  refine ⟨List.mem_cons_of_mem _ ha1, ?_⟩
                  intro hmem
                  rcases List.mem_cons.mp hmem with h3 | h3
                  · exact h2 (h3 ▸ ha1)
                  · exact ha2 h3
                · rintro ⟨ha1, ha2⟩
                  have hne : a ≠ nid := fun hh => ha2 (hh ▸ List.mem_cons_self _ _)
                  rcases List.mem_cons.mp ha1 with h3 | h3
                  · exact absurd h3 hne
                  · exact ⟨h3, fun hk => ha2 (List.mem_cons_of_mem _ hk)⟩
              obtain ⟨j1, j2, j3⟩ := ih node.depends_on (nid :: seen) (nid :: stack) s1 _ hv
                (blackInv_congr htrans hinv) (blackAcyc_congr htrans hacy)
              have hnidblack : IsBlack s1 stack nid :=
                ⟨hs1 nid (List.mem_cons_self _ _), h1⟩
              have hpop_inv : BlackInv m s1 stack := by
                rintro a ⟨ha1, ha2⟩
                by_cases han : a = nid
                · subst han
                  refine ⟨node, hl, fun d hd => ?_⟩
                  obtain ⟨b1, b2⟩ := j3 d hd
                  exact ⟨b1, fun hk => b2 (List.mem_cons_of_mem _ hk)⟩
                · have ham : a ∉ nid :: stack := by
                    intro hmem
                    rcases List.mem_cons.mp hmem with h3 | h3
                    · exact han h3
                    · exact ha2 h3
                  obtain ⟨node2, hl2, hd2⟩ := j1 a ⟨ha1, ham⟩
                  refine ⟨node2, hl2, fun d hd => ?_⟩
                  obtain ⟨b1, b2⟩ := hd2 d hd
                  exact ⟨b1, fun hk => b2 (List.mem_cons_of_mem _ hk)⟩
              have hpop_acy : BlackAcyc m s1 stack := by
                rintro a ⟨ha1, ha2⟩ hcyc
                by_cases han : a = nid
                · subst han
                  obtain ⟨c, hedge, hreach⟩ := Relation.TransGen.head'_iff.mp hcyc
                  obtain ⟨node2, hl2, hcm⟩ := hedge
                  rw [hl] at hl2
                  injection hl2 with he
                  have hcblack : IsBlack s1 (a :: stack) c := by
                    refine j3 c ?_
                    rw [he]
                    exact hcm
                  have hend := black_reach j1 hreach hcblack
                  exact hend.2 (List.mem_cons_self _ _)
                · refine j2 a ⟨ha1, ?_⟩ hcyc
                  intro hmem
                  rcases List.mem_cons.mp hmem with h3 | h3
                  · exact han h3
                  · exact ha2 h3
              obtain ⟨f1, f2, f3⟩ := ih rest s1 stack seen' stack' h hpop_inv hpop_acy
              refine ⟨f1, f2, ?_⟩
              intro t ht
              rcases List.mem_cons.mp ht with h3 | h3
              · subst h3
                have hsub2 := (visitList_shape m fuel _ _ _ _ _ h).2.1
                exact ⟨hsub2 t hnidblack.1, h1⟩
              · exact f3 t h3

theorem visitList_no_errFuel {V : Type} (m : List (String × Node V)) :
    ∀ (fuel : Nat) (todo seen stack : List String),
      visitList m fuel todo seen stack ≠ .err .fuelExhausted := by
  intro fuel
  induction fuel with
  | zero =>
    intro todo seen stack
    simp [visitList]
  | succ fuel ih =>
    intro todo seen stack
    cases todo with
    | nil => simp [visitList]
    | cons nid rest =>
      simp only [visitList]
      by_cases h1 : nid ∈ stack
      · rw [if_pos h1]
        simp
      · rw [if_neg h1]
        by_cases h2 : nid ∈ seen
        · rw [if_pos h2]
          exact ih rest seen stack
        · rw [if_neg h2]
          cases hl : dlookup m nid with
          | none => simp
          | some node =>
            show (match visitList m fuel node.depends_on (nid :: seen) (nid :: stack) with
              | .ok seen' stack' => visitList m fuel rest seen' (stack'.erase nid)
              | r => r) ≠ VisitOut.err DagError.fuelExhausted
            cases hv : visitList m fuel node.depends_on (nid :: seen) (nid :: stack) with
            | ok s1 k1 => exact ih rest s1 (k1.erase nid)
            | err e =>
              have hne := ih node.depends_on (nid :: seen) (nid :: stack)
              rw [hv] at hne
              exact hne
            | fuelOut => simp

/-! ### The cycle check at the top level -/

theorem checkCycles_ok_of {V : Type} {m : List (String × Node V)}
    (ha : AcyclicM m) (hr : ResolvableM m) : checkCycles m = .ok () := by
  unfold checkCycles
  have hfuel : (m.map Prod.fst).length + visitBound m [] + 1 ≤
      m.length + visitBound m [] + 1 := by simp
  have h3 := visitList_no_cycleErr m ha (m.length + visitBound m [] + 1) (m.map Prod.fst) [] []
    (fun t ht s hs => absurd hs (List.not_mem_nil s))
  have h4 := visitList_no_keyErr m hr (m.length + visitBound m [] + 1) (m.map Prod.fst) [] []
    (fun t ht => (dlookup_isSome_iff m t).mpr ht)
  have h5 := visitList_no_fuelOut m (m.length + visitBound m [] + 1) (m.map Prod.fst) [] [] hfuel
  have h6 := visitList_no_errFuel m (m.length + visitBound m [] + 1) (m.map Prod.fst) [] []
  cases hv : visitList m (m.length + visitBound m [] + 1) (m.map Prod.fst) [] [] with
  | ok s k => rfl
  | err e =>
    cases e with
    | cycleDetected => exact absurd hv h3
    | keyError d => exact absurd hv (h4 d)
    | fuelExhausted => exact absurd hv h6
  | fuelOut => exact absurd hv h5

theorem checkCycles_acyclic {V : Type} {m : List (String × Node V)}
    (h : checkCycles m = .ok ()) : AcyclicM m := by
  unfold checkCycles at h
  cases hv : visitList m (m.length + visitBound m [] + 1) (m.map Prod.fst) [] [] with
  | ok s k =>
    obtain ⟨b1, b2, b3⟩ := visitList_black m _ _ _ _ _ _ hv
      (fun a ha => absurd ha.1 (List.not_mem_nil a))
      (fun a ha => absurd ha.1 (List.not_mem_nil a))
    intro a hcyc
    obtain ⟨c, hedge, _⟩ := Relation.TransGen.head'_iff.mp hcyc
    obtain ⟨node, hl, _⟩ := hedge
    have hak : a ∈ m.map Prod.fst := (dlookup_isSome_iff m a).mp (by rw [hl]; rfl)
    exact b2 a (b3 a hak) hcyc
  | err e =>
    rw [hv] at h
    exact Except.noConfusion h
  | fuelOut =>
    rw [hv] at h
    exact Except.noConfusion h

theorem checkCycles_resolvable {V : Type} {m : List (String × Node V)}
    (hn : (m.map Prod.fst).Nodup) (h : checkCycles m = .ok ()) : ResolvableM m := by
  unfold checkCycles at h
  cases hv : visitList m (m.length + visitBound m [] + 1) (m.map Prod.fst) [] [] with
  | ok s k =>
    obtain ⟨b1, b2, b3⟩ := visitList_black m _ _ _ _ _ _ hv
      (fun a ha => absurd ha.1 (List.not_mem_nil a))
      (fun a ha => absurd ha.1 (List.not_mem_nil a))
    intro p hp d hd
    obtain ⟨k0, v0⟩ := p
    have hpk : k0 ∈ m.map Prod.fst := List.mem_map.mpr ⟨(k0, v0), hp, rfl⟩
    obtain ⟨node, hl, hdblack⟩ := b1 k0 (b3 k0 hpk)
    have hnode : node = v0 := by
      rw [mem_dlookup hn hp] at hl
      injection hl with hh
      exact hh.symm
    have hd2 : d ∈ node.depends_on := by
      rw [hnode]
      exact hd
    obtain ⟨node2, hl2, _⟩ := b1 d (hdblack d hd2)
    rw [hl2]
    rfl
  | err e =>
    rw [hv] at h
    exact Except.noConfusion h
  | fuelOut =>
    rw [hv] at h
    exact Except.noConfusion h

theorem checkCycles_ne_cycleErr {V : Type} {m : List (String × Node V)}
    (ha : AcyclicM m) : checkCycles m ≠ .error .cycleDetected := by
  unfold checkCycles
  cases hv : visitList m (m.length + visitBound m [] + 1) (m.map Prod.fst) [] [] with
  | ok s k => simp
  | err e =>
    intro heq
    injection heq with h'
    subst h'
    exact visitList_no_cycleErr m ha _ _ _ _
      (fun t ht s hs => absurd hs (List.not_mem_nil s)) hv
  | fuelOut =>
    intro heq
    injection heq with h'
    exact DagError.noConfusion h'

theorem checkCycles_ne_keyErr {V : Type} {m : List (String × Node V)}
    (hr : ResolvableM m) (d : String) : checkCycles m ≠ .error (.keyError d) := by
  unfold checkCycles
  cases hv : visitList m (m.length + visitBound m [] + 1) (m.map Prod.fst) [] [] with
  | ok s k => simp
  | err e =>
    intro heq
    injection heq with h'
    subst h'
    exact visitList_no_keyErr m hr _ _ _ _
      (fun t ht => (dlookup_isSome_iff m t).mpr ht) d hv
  | fuelOut =>
    intro heq
    injection heq with h'
    exact DagError.noConfusion h'

theorem checkCycles_ne_fuel {V : Type} (m : List (String × Node V)) :
    checkCycles m ≠ .error .fuelExhausted := by
  unfold checkCycles
  have hfuel : (m.map Prod.fst).length + visitBound m [] + 1 ≤
      m.length + visitBound m [] + 1 := by simp
  cases hv : visitList m (m.length + visitBound m [] + 1) (m.map Prod.fst) [] [] with
  | ok s k => simp
  | err e =>
    intro heq
    injection heq with h'
    subst h'
    exact visitList_no_errFuel m _ _ _ _ hv
  | fuelOut => exact absurd hv (visitList_no_fuelOut m _ _ _ _ hfuel)

theorem checkCycles_keyErr_sound {V : Type} {m : List (String × Node V)} {d : String}
    (h : checkCycles m = .error (.keyError d)) : dlookup m d = none := by
  unfold checkCycles at h
  cases hv : visitList m (m.length + visitBound m [] + 1) (m.map Prod.fst) [] [] with
  | ok s k =>
    rw [hv] at h
    exact Except.noConfusion h
  | err e =>
    rw [hv] at h
    injection h with h'
    subst h'
    exact visitList_keyErr_sound m _ _ _ _ d hv
  | fuelOut =>
    rw [hv] at h
    injection h with h'
    exact DagError.noConfusion h'

/-! ### DAG.init wrappers and bridges -/

theorem init_ok_of_checkCycles {V : Type} {ns : List (Node V)}
    (h : checkCycles (buildNodes ns) = .ok ()) : DAG.init ns = .ok ⟨buildNodes ns⟩ := by
  unfold DAG.init
  rw [h]

theorem init_error_of_checkCycles {V : Type} {ns : List (Node V)} {e : DagError}
    (h : checkCycles (buildNodes ns) = .error e) : DAG.init ns = .error e := by
  unfold DAG.init
  rw [h]

theorem init_ok_elim {V : Type} {ns : List (Node V)} {dag : DAG V}
    (h : DAG.init ns = .ok dag) :
    dag = ⟨buildNodes ns⟩ ∧ checkCycles (buildNodes ns) = .ok () := by
  unfold DAG.init at h
  cases hc : checkCycles (buildNodes ns) with
  | ok u =>
    cases u
    rw [hc] at h
    injection h with h'
    exact ⟨h'.symm, rfl⟩
  | error e =>
    rw [hc] at h
    exact Except.noConfusion h

theorem edge_buildNodes_sub {V : Type} (ns : List (Node V)) {a b : String}
    (h : edge (buildNodes ns) a b) : nodeEdge ns a b := by
  obtain ⟨node, hl, hb⟩ := h
  obtain ⟨hmem, hid⟩ := dlookup_buildNodes_mem hl
  exact ⟨node, hmem, hid, hb⟩

theorem acyclicM_of_acyclicNs {V : Type} {ns : List (Node V)} (h : AcyclicNs ns) :
    AcyclicM (buildNodes ns) := by
  intro a hcyc
  exact h a (Relation.TransGen.mono (fun x y hxy => edge_buildNodes_sub ns hxy) hcyc)

theorem resolvableM_of_resolvableNs {V : Type} {ns : List (Node V)} (h : ResolvableNs ns) :
    ResolvableM (buildNodes ns) := by
  intro p hp d hd
  obtain ⟨hmem, hid⟩ := dlookup_buildNodes_mem (mem_buildNodes_dlookup hp)
  obtain ⟨n2, hn2, hn2id⟩ := h p.2 hmem d hd
  exact (dlookup_buildNodes_isSome ns d).mpr ⟨n2, hn2, hn2id⟩

/-- A ranking function decreasing along declared dependencies certifies
acyclicity of a raw node sequence (used to discharge acyclicity at concrete
inputs). -/
theorem acyclicNs_of_rank {V : Type} (ns : List (Node V)) (rank : String → Nat)
    (h : ∀ n ∈ ns, ∀ d ∈ n.depends_on, rank d < rank n.id) : AcyclicNs ns := by
  have hstep : ∀ a b, nodeEdge ns a b → rank b < rank a := by
    rintro a b ⟨n, hn, hid, hb⟩
    exact hid ▸ h n hn b hb
  have htg : ∀ a b, Relation.TransGen (nodeEdge ns) a b → rank b < rank a := by
    intro a b htg
    induction htg with
    | single h1 => exact hstep _ _ h1
    | tail h1 h2 ih => exact lt_trans (hstep _ _ h2) ih
  intro a hcyc
  exact lt_irrefl _ (htg a a hcyc)

/-- A ranking function decreasing along declared dependencies certifies
acyclicity of a node mapping. -/
theorem acyclicM_of_rank {V : Type} (m : List (String × Node V)) (rank : String → Nat)
    (h : ∀ p ∈ m, ∀ d ∈ p.2.depends_on, rank d < rank p.1) : AcyclicM m := by
  have hstep : ∀ a b, edge m a b → rank b < rank a := by
    rintro a b ⟨node, hl, hb⟩
    exact h (a, node) (dlookup_mem hl) b hb
  have htg : ∀ a b, Relation.TransGen (edge m) a b → rank b < rank a := by
    intro a b htg
    induction htg with
    | single h1 => exact hstep _ _ h1
    | tail h1 h2 ih => exact lt_trans (hstep _ _ h2) ih
  intro a hcyc
  exact lt_irrefl _ (htg a a hcyc)

/-! ### The run loop: trace predicates -/

/-- The results entries recorded by a trace, in execution order. -/
def traceResults {V : Type} (tr : List (TraceEntry V)) : List (String × V) :=
  tr.map (fun e => (e.nid, e.out))

/-- The node ids recorded by a trace, in execution order. -/
def traceIds {V : Type} (tr : List (TraceEntry V)) : List String :=
  tr.map (fun e => e.nid)

/-- Every invocation recorded by the trace is well formed: the context
argument is the merge of the initial context with the results accumulated
strictly before it, the invoked node is the mapping's entry for that id,
every declared dependency was executed strictly before, and the output is
the work function applied to the context argument. -/
def TraceOK {V : Type} (m : List (String × Node V)) (ctx0 : List (String × V))
    (tr : List (TraceEntry V)) : Prop :=
  ∀ pre e post, tr = pre ++ e :: post →
    e.ctxArg = mergeDicts ctx0 (traceResults pre) ∧
    ∃ node, dlookup m e.nid = some node ∧
      (∀ d ∈ node.depends_on, d ∈ traceIds pre) ∧
      e.out = node.fn e.ctxArg

/-- Relation between the mutable locals of the run loop and the ghost trace. -/
def Inv {V : Type} (m : List (String × Node V)) (ctx0 : List (String × V))
    (st : RunState V) : Prop :=
  st.context = ctx0 ∧
  st.results = traceResults st.trace ∧
  st.done = (traceIds st.trace).reverse ∧
  (traceIds st.trace).Nodup ∧
  TraceOK m ctx0 st.trace

theorem concat_decomp {α : Type} : ∀ {l pre post : List α} {e x : α},
    l ++ [x] = pre ++ e :: post →
    (pre = l ∧ e = x ∧ post = []) ∨
      (∃ post0, post = post0 ++ [x] ∧ l = pre ++ e :: post0) := by
  intro l pre
  induction pre generalizing l with
  | nil =>
    intro post e x h
    cases l with
    | nil =>
      rw [List.nil_append, List.nil_append] at h
      injection h with h1 h2
      exact Or.inl ⟨rfl, h1.symm, h2.symm⟩
    | cons a l' =>
      rw [List.cons_append, List.nil_append] at h
      injection h with h1 h2
      refine Or.inr ⟨l', h2.symm, ?_⟩
      rw [List.nil_append, h1]
  | cons q pre' ih =>
    intro post e x h
    cases l with
    | nil =>
      rw [List.nil_append, List.cons_append] at h
      injection h with h1 h2
      obtain ⟨e1, e2⟩ := List.append_eq_nil.mp h2.symm
      exact List.noConfusion e2
    | cons a l' =>
      rw [List.cons_append, List.cons_append] at h
      injection h with h1 h2
      rcases ih h2 with ⟨p1, p2, p3⟩ | ⟨post0, p1, p2⟩
      · refine Or.inl ⟨?_, p2, p3⟩
        rw [h1, p1]
      · refine Or.inr ⟨post0, p1, ?_⟩
        rw [List.cons_append, h1, p2]

/-! ### One pass of the run loop -/

theorem runPass_shape {V : Type} (p : Nat) :
    ∀ (l : List (String × Node V)) (st : RunState V) (progress : Bool),
      ∃ delta,
        (runPass p l st progress).1.trace = st.trace ++ delta ∧
        (runPass p l st progress).1.context = st.context ∧
        (runPass p l st progress).1.done = (traceIds delta).reverse ++ st.done ∧
        (traceIds delta).Sublist (l.map Prod.fst) ∧
        (∀ e ∈ delta, e.passNo = p) ∧
        ((runPass p l st progress).2 = true ↔ progress = true ∨ delta ≠ []) := by
  intro l
  induction l with
  | nil =>
    intro st progress
    refine ⟨[], by simp [runPass, traceIds], by simp [runPass],
      by simp [runPass, traceIds], by simp [traceIds], by simp, ?_⟩
    simp [runPass]
  | cons pr rest ih =>
    intro st progress
    obtain ⟨nid, node⟩ := pr
    by_cases h1 : nid ∈ st.done
    · obtain ⟨delta, d1, d2, d3, d4, d5, d6⟩ := ih st progress
      refine ⟨delta, ?_, ?_, ?_, ?_, d5, ?_⟩
      · simpa [runPass, h1] using d1
      · simpa [runPass, h1] using d2
      · simpa [runPass, h1] using d3
      · exact d4.trans (List.Sublist.cons _ (List.Sublist.refl _))
      · simpa [runPass, h1] using d6
    · by_cases h2 : ∀ d ∈ node.depends_on, d ∈ st.done
      · set st2 : RunState V := ⟨st.context,
          dictInsert st.results nid (node.fn (mergeDicts st.context st.results)),
          nid :: st.done,
          st.trace ++ [⟨p, nid, mergeDicts st.context st.results,
            node.fn (mergeDicts st.context st.results)⟩]⟩ with hst2
        have hrw : runPass p ((nid, node) :: rest) st progress = runPass p rest st2 true := by
          simp only [runPass]
          rw [if_neg h1, if_pos h2]
        obtain ⟨delta, d1, d2, d3, d4, d5, d6⟩ := ih st2 true
        refine ⟨⟨p, nid, mergeDicts st.context st.results,
          node.fn (mergeDicts st.context st.results)⟩ :: delta, ?_, ?_, ?_, ?_, ?_, ?_⟩
        · rw [hrw, d1, hst2]
          simp
        · rw [hrw, d2, hst2]
        · rw [hrw, d3, hst2]
          simp [traceIds]
        · simp only [traceIds, List.map_cons, List.map_map]
          exact List.cons_sublist_cons.mpr d4
        · intro e he
          rcases List.mem_cons.mp he with h3 | h3
          · rw [h3]
          · exact d5 e h3
        · rw [hrw]
          constructor
          · intro _
            exact Or.inr (by simp)
          · intro _
            exact d6.mpr (Or.inl rfl)
      · obtain ⟨delta, d1, d2, d3, d4, d5, d6⟩ := ih st progress
        refine ⟨delta, ?_, ?_, ?_, ?_, d5, ?_⟩
        · simpa [runPass, h1, h2] using d1
        · simpa [runPass, h1, h2] using d2
        · simpa [runPass, h1, h2] using d3
        · exact d4.trans (List.Sublist.cons _ (List.Sublist.refl _))
        · simpa [runPass, h1, h2] using d6

theorem traceResults_map_fst {V : Type} (tr : List (TraceEntry V)) :
    (traceResults tr).map Prod.fst = traceIds tr := by
  rw [traceResults, traceIds, List.map_map]
  rfl

theorem runPass_inv {V : Type} {m : List (String × Node V)} {ctx0 : List (String × V)} (p : Nat)
    (hn : (m.map Prod.fst).Nodup) :
    ∀ (l : List (String × Node V)) (st : RunState V) (progress : Bool),
      (∀ pr ∈ l, pr ∈ m) → Inv m ctx0 st → Inv m ctx0 (runPass p l st progress).1 := by
  intro l
  induction l with
  | nil =>
    intro st progress _ hinv
    simpa [runPass] using hinv
  | cons pr rest ih =>
    intro st progress hsub hinv
    obtain ⟨nid, node⟩ := pr
    by_cases h1 : nid ∈ st.done
    · have hrw : runPass p ((nid, node) :: rest) st progress = runPass p rest st progress := by
        simp only [runPass]
        rw [if_pos h1]
      rw [hrw]
      exact ih st progress (fun q hq => hsub q (List.mem_cons_of_mem _ hq)) hinv
    · by_cases h2 : ∀ d ∈ node.depends_on, d ∈ st.done
      · obtain ⟨c1, c2, c3, c4, c5⟩ := hinv
        set entry : TraceEntry V := ⟨p, nid, mergeDicts st.context st.results,
          node.fn (mergeDicts st.context st.results)⟩ with hentry
        set st2 : RunState V := ⟨st.context, dictInsert st.results nid entry.out,
          nid :: st.done, st.trace ++ [entry]⟩ with hst2
        have hrw : runPass p ((nid, node) :: rest) st progress = runPass p rest st2 true := by
          simp only [runPass]
          rw [if_neg h1, if_pos h2]
        rw [hrw]
        apply ih st2 true (fun q hq => hsub q (List.mem_cons_of_mem _ hq))
        have hnid_not : nid ∉ traceIds st.trace := by
          intro hmem
          apply h1
          rw [c3, List.mem_reverse]
          exact hmem
        have hres_not : nid ∉ st.results.map Prod.fst := by
          rw [c2, traceResults_map_fst]
          exact hnid_not
        refine ⟨c1, ?_, ?_, ?_, ?_⟩
        · show dictInsert st.results nid entry.out = traceResults (st.trace ++ [entry])
          rw [dictInsert_of_not_mem _ hres_not, c2, traceResults, traceResults,
            List.map_append]
          rfl
        · show nid :: st.done = (traceIds (st.trace ++ [entry])).reverse
          rw [c3, traceIds, traceIds, List.map_append, List.reverse_append]
          rfl
        · show (traceIds (st.trace ++ [entry])).Nodup
          rw [traceIds, List.map_append]
          rw [List.nodup_append]
          refine ⟨c4, by simp, ?_⟩
          intro x hx hx2
          simp only [List.map_cons, List.map_nil, List.mem_cons, List.not_mem_nil,
            or_false] at hx2
          subst hx2
          exact hnid_not hx
        · intro pre e post heq
          rcases concat_decomp heq with ⟨hpre, he, hpost⟩ | ⟨post0, hpost, hpre⟩
          · subst hpre
            subst he
            refine ⟨?_, node, ?_, ?_, rfl⟩
            · show mergeDicts st.context st.results = mergeDicts ctx0 (traceResults st.trace)
              rw [c1, c2]
            · exact mem_dlookup hn (hsub (nid, node) (List.mem_cons_self _ _))
            · intro d hd
              have := h2 d hd
              rw [c3, List.mem_reverse] at this
              exact this
          · exact c5 pre e post0 hpre
      · have hrw : runPass p ((nid, node) :: rest) st progress = runPass p rest st progress := by
          simp only [runPass]
          rw [if_neg h1, if_neg h2]
        rw [hrw]
        exact ih st progress (fun q hq => hsub q (List.mem_cons_of_mem _ hq)) hinv

theorem runPass_true_progress {V : Type} (p : Nat) (l : List (String × Node V))
    (st : RunState V) : (runPass p l st true).2 = true := by
  obtain ⟨delta, _, _, _, _, _, d6⟩ := runPass_shape p l st true
  exact d6.mpr (Or.inl rfl)

theorem runPass_false_elim {V : Type} (p : Nat) :
    ∀ (l : List (String × Node V)) (st : RunState V),
      (runPass p l st false).2 = false →
      ∀ pr ∈ l, pr.1 ∈ st.done ∨ ¬(∀ d ∈ pr.2.depends_on, d ∈ st.done) := by
  intro l
  induction l with
  | nil =>
    intro st h pr hpr
    exact absurd hpr (List.not_mem_nil pr)
  | cons q rest ih =>
    intro st h pr hpr
    obtain ⟨nid, node⟩ := q
    by_cases h1 : nid ∈ st.done
    · have hrw : runPass p ((nid, node) :: rest) st false = runPass p rest st false := by
        simp only [runPass]
        rw [if_pos h1]
      rw [hrw] at h
      rcases List.mem_cons.mp hpr with h3 | h3
      · subst h3
        exact Or.inl h1
      · exact ih st h pr h3
    · by_cases h2 : ∀ d ∈ node.depends_on, d ∈ st.done
      · exfalso
        have hrw : (runPass p ((nid, node) :: rest) st false).2 =
            (runPass p rest ⟨st.context,
              dictInsert st.results nid (node.fn (mergeDicts st.context st.results)),
              nid :: st.done,
              st.trace ++ [⟨p, nid, mergeDicts st.context st.results,
                node.fn (mergeDicts st.context st.results)⟩]⟩ true).2 := by
          simp only [runPass]
          rw [if_neg h1, if_pos h2]
        rw [hrw, runPass_true_progress] at h
        exact Bool.noConfusion h
      · have hrw : runPass p ((nid, node) :: rest) st false = runPass p rest st false := by
          simp only [runPass]
          rw [if_neg h1, if_neg h2]
        rw [hrw] at h
        rcases List.mem_cons.mp hpr with h3 | h3
        · subst h3
          exact Or.inr h2
        · exact ih st h pr h3

/-! ### Progress: an acyclic resolvable mapping always has a ready node -/

theorem exists_undone {done keys : List String} (hn : keys.Nodup)
    (hsub : ∀ x ∈ done, x ∈ keys) (hnd : done.Nodup) (hlen : done.length < keys.length) :
    ∃ k ∈ keys, k ∉ done := by
  by_contra hc
  push_neg at hc
  have hsub2 : keys.toFinset ⊆ done.toFinset := fun x hx =>
    List.mem_toFinset.mpr (hc x (List.mem_toFinset.mp hx))
  have hcard := Finset.card_le_card hsub2
  rw [List.toFinset_card_of_nodup hn, List.toFinset_card_of_nodup hnd] at hcard
  omega

theorem exists_ready {V : Type} {m : List (String × Node V)}
    (ha : AcyclicM m) (hr : ResolvableM m) (done : List String)
    (hex : ∃ k ∈ m.map Prod.fst, k ∉ done) :
    ∃ k node, dlookup m k = some node ∧ k ∉ done ∧
      ∀ d ∈ node.depends_on, d ∈ done := by
  classical
  obtain ⟨k0, hk0m, hk0d⟩ := hex
  set U : Finset String := ((m.map Prod.fst).filter (fun k => decide (k ∉ done))).toFinset
    with hU
  have hk0U : k0 ∈ U := by
    rw [hU, List.mem_toFinset, List.mem_filter]
    exact ⟨hk0m, by simpa using hk0d⟩
  let r : {x // x ∈ U} → {x // x ∈ U} → Prop :=
    fun x y => Relation.TransGen (edge m) y.val x.val
  have hwf : WellFounded r :=
    @Finite.wellFounded_of_trans_of_irrefl _ _ r
      ⟨fun a b c h1 h2 => Relation.TransGen.trans h2 h1⟩
      ⟨fun x h => ha x.val h⟩
  obtain ⟨u0, _, hmin⟩ := hwf.has_min Set.univ ⟨⟨k0, hk0U⟩, Set.mem_univ _⟩
  have hu0U : u0.val ∈ ((m.map Prod.fst).filter (fun k => decide (k ∉ done))).toFinset :=
    u0.property
  rw [List.mem_toFinset, List.mem_filter] at hu0U
  obtain ⟨hu0m, hu0d⟩ := hu0U
  have hu0d2 : u0.val ∉ done := by simpa using hu0d
  obtain ⟨node, hnode⟩ := Option.isSome_iff_exists.mp ((dlookup_isSome_iff m u0.val).mpr hu0m)
  refine ⟨u0.val, node, hnode, hu0d2, ?_⟩
  intro d hd
  by_contra hdd
  have hdm : d ∈ m.map Prod.fst :=
    (dlookup_isSome_iff m d).mp (hr (u0.val, node) (dlookup_mem hnode) d hd)
  have hdU : d ∈ U := by
    rw [hU, List.mem_toFinset, List.mem_filter]
    exact ⟨hdm, by simpa using hdd⟩
  exact hmin ⟨d, hdU⟩ (Set.mem_univ _) (Relation.TransGen.single ⟨node, hnode, hd⟩)

/-! ### The run loop -/

theorem runLoop_inv {V : Type} {m : List (String × Node V)} {ctx0 : List (String × V)}
    (hn : (m.map Prod.fst).Nodup) :
    ∀ (fuel p : Nat) (st st' : RunState V),
      runLoop m fuel p st = .ok st' → Inv m ctx0 st →
      Inv m ctx0 st' ∧ m.length ≤ st'.done.length ∧
        ∃ delta, st'.trace = st.trace ++ delta := by
  intro fuel
  induction fuel with
  | zero =>
    intro p st st' h hinv
    simp only [runLoop] at h
    exact Except.noConfusion h
  | succ fuel ih =>
    intro p st st' h hinv
    simp only [runLoop] at h
    by_cases hguard : st.done.length < m.length
    · rw [if_pos hguard] at h
      cases hrp : runPass p m st false with
      | mk st1 prog =>
        rw [hrp] at h
        cases prog with
        | false => exact Except.noConfusion h
        | true =>
          have hinv1 : Inv m ctx0 st1 := by
            have := runPass_inv p hn m st false (fun pr hpr => hpr) hinv
            rw [hrp] at this
            exact this
          obtain ⟨h1, h2, delta2, h3⟩ := ih (p + 1) st1 st' h hinv1
          obtain ⟨delta1, d1, _⟩ := runPass_shape p m st false
          rw [hrp] at d1
          exact ⟨h1, h2, delta1 ++ delta2, by rw [h3, d1, List.append_assoc]⟩
    · rw [if_neg hguard] at h
      injection h with h'
      subst h'
      exact ⟨hinv, by omega, [], by simp⟩

theorem runLoop_ok {V : Type} {m : List (String × Node V)} {ctx0 : List (String × V)}
    (hn : (m.map Prod.fst).Nodup) (ha : AcyclicM m) (hr : ResolvableM m) :
    ∀ (fuel p : Nat) (st : RunState V),
      Inv m ctx0 st → m.length - st.done.length < fuel →
      ∃ st', runLoop m fuel p st = .ok st' := by
  intro fuel
  induction fuel with
  | zero =>
    intro p st hinv hlen
    omega
  | succ fuel ih =>
    intro p st hinv hlen
    by_cases hguard : st.done.length < m.length
    · obtain ⟨c1, c2, c3, c4, c5⟩ := hinv
      have hdone_sub : ∀ x ∈ st.done, x ∈ m.map Prod.fst := by
        intro x hx
        rw [c3, List.mem_reverse, traceIds] at hx
        obtain ⟨e, he, hex⟩ := List.mem_map.mp hx
        obtain ⟨pre, post, hdecomp⟩ := List.append_of_mem he
        obtain ⟨_, node, hlk, _, _⟩ := c5 pre e post hdecomp
        rw [← hex]
        exact (dlookup_isSome_iff m e.nid).mp (by rw [hlk]; rfl)
      have hdone_nodup : st.done.Nodup := by
        rw [c3, List.nodup_reverse]
        exact c4
      have hkeys_len : (m.map Prod.fst).length = m.length := List.length_map _ _
      have hex : ∃ k ∈ m.map Prod.fst, k ∉ st.done :=
        exists_undone hn hdone_sub hdone_nodup (by omega)
      obtain ⟨k, node, hlk, hkd, hkready⟩ := exists_ready ha hr st.done hex
      cases hrp : runPass p m st false with
      | mk st1 prog =>
        cases prog with
        | false =>
          exfalso
          have hfe := runPass_false_elim p m st (by rw [hrp]) (k, node) (dlookup_mem hlk)
          rcases hfe with h3 | h3
          · exact hkd h3
          · exact h3 hkready
        | true =>
          have hinv1 : Inv m ctx0 st1 := by
            have := runPass_inv p hn m st false (fun pr hpr => hpr) ⟨c1, c2, c3, c4, c5⟩
            rw [hrp] at this
            exact this
          obtain ⟨delta, d1, d2, d3, d4, d5, d6⟩ := runPass_shape p m st false
          rw [hrp] at d1 d2 d3 d6
          have hdelta_ne : delta ≠ [] := by
            rcases d6.mp rfl with h3 | h3
            · exact Bool.noConfusion h3
            · exact h3
          have hlen1 : st.done.length < st1.done.length := by
            rw [d3, List.length_append, List.length_reverse]
            cases delta with
            | nil => exact absurd rfl hdelta_ne
            | cons a l => simp [traceIds]
          obtain ⟨st', hst'⟩ := ih (p + 1) st1 hinv1 (by omega)
          refine ⟨st', ?_⟩
          simp only [runLoop]
          rw [if_pos hguard, hrp]
          exact hst'
    · refine ⟨st, ?_⟩
      simp only [runLoop]
      rw [if_neg hguard]

theorem inv_ids_perm_keys {V : Type} {m : List (String × Node V)} {ctx0 : List (String × V)}
    {st : RunState V} (hinv : Inv m ctx0 st) (hlen : m.length ≤ st.done.length) :
    (traceIds st.trace).Perm (m.map Prod.fst) := by
  obtain ⟨c1, c2, c3, c4, c5⟩ := hinv
  have hdone_sub : ∀ x ∈ st.done, x ∈ m.map Prod.fst := by
    intro x hx
    rw [c3, List.mem_reverse, traceIds] at hx
    obtain ⟨e, he, hex⟩ := List.mem_map.mp hx
    obtain ⟨pre, post, hdecomp⟩ := List.append_of_mem he
    obtain ⟨_, node, hlk, _, _⟩ := c5 pre e post hdecomp
    rw [← hex]
    exact (dlookup_isSome_iff m e.nid).mp (by rw [hlk]; rfl)
  have hdone_nodup : st.done.Nodup := by
    rw [c3, List.nodup_reverse]
    exact c4
  have hsp : st.done.Subperm (m.map Prod.fst) :=
    List.subperm_of_subset hdone_nodup hdone_sub
  have hperm : st.done.Perm (m.map Prod.fst) :=
    hsp.perm_of_length_le (by rw [List.length_map]; omega)
  have h1 : (traceIds st.trace).Perm st.done := by
    rw [c3]
    exact (List.reverse_perm _).symm
  exact h1.trans hperm

theorem runLoop_pass_sublist {V : Type} (m : List (String × Node V)) :
    ∀ (fuel p : Nat) (st st' : RunState V),
      runLoop m fuel p st = .ok st' →
      (∀ e ∈ st.trace, e.passNo < p) →
      (∀ q, ((st.trace.filter (fun e => e.passNo == q)).map (fun e => e.nid)).Sublist
        (m.map Prod.fst)) →
      ∀ q, ((st'.trace.filter (fun e => e.passNo == q)).map (fun e => e.nid)).Sublist
        (m.map Prod.fst) := by
  intro fuel
  induction fuel with
  | zero =>
    intro p st st' h hp hs
    simp only [runLoop] at h
    exact Except.noConfusion h
  | succ fuel ih =>
    intro p st st' h hpass hsubl
    simp only [runLoop] at h
    by_cases hguard : st.done.length < m.length
    · rw [if_pos hguard] at h
      cases hrp : runPass p m st false with
      | mk st1 prog =>
        rw [hrp] at h
        cases prog with
        | false => exact Except.noConfusion h
        | true =>
          obtain ⟨delta, d1, d2, d3, d4, d5, d6⟩ := runPass_shape p m st false
          rw [hrp] at d1
          apply ih (p + 1) st1 st' h
          · intro e he
            rw [d1] at he
            rcases List.mem_append.mp he with h3 | h3
            · exact lt_trans (hpass e h3) (Nat.lt_succ_self p)
            · rw [d5 e h3]
              exact Nat.lt_succ_self p
          · intro q
            rw [d1, List.filter_append, List.map_append]
            by_cases hq : q = p
            · subst hq
              have hempty : st.trace.filter (fun e => e.passNo == q) = [] := by
                rw [List.filter_eq_nil]
                intro e he
                simp only [beq_iff_eq]
                exact Nat.ne_of_lt (hpass e he)
              have hfull : delta.filter (fun e => e.passNo == q) = delta := by
                rw [List.filter_eq_self]
                intro e he
                simp [d5 e he]
              rw [hempty, hfull]
              simpa [traceIds] using d4
            · have hempty : delta.filter (fun e => e.passNo == q) = [] := by
                rw [List.filter_eq_nil]
                intro e he
                rw [d5 e he]
                simp only [beq_iff_eq]
                exact fun hh => hq hh.symm
              rw [hempty]
              simpa using hsubl q
    · rw [if_neg hguard] at h
      injection h with h'
      subst h'
      exact hsubl

theorem traceIds_append {V : Type} (l1 l2 : List (TraceEntry V)) :
    traceIds (l1 ++ l2) = traceIds l1 ++ traceIds l2 := by
  simp [traceIds]

theorem traceIds_cons {V : Type} (e : TraceEntry V) (l : List (TraceEntry V)) :
    traceIds (e :: l) = e.nid :: traceIds l := rfl

theorem inv_initState {V : Type} (m : List (String × Node V)) (ctx : List (String × V)) :
    Inv m ctx (initState ctx) := by
  refine ⟨rfl, rfl, rfl, List.nodup_nil, ?_⟩
  intro pre e post heq
  exact absurd (heq.symm : pre ++ e :: post = [])
    (fun hh => List.noConfusion (List.append_eq_nil.mp hh).2)

theorem initState_done_length {V : Type} (ctx : List (String × V)) :
    (initState ctx).done.length = 0 := rfl

/-! ### Claims -/

/-- C1: for every finite node set whose dependency relation is acyclic and
whose every declared dependency id names a node in the set, DAG construction
succeeds and DAG.run terminates for every initial context, returning a
result mapping with exactly one entry per node, keyed by that node's id (its
keys are distinct and a permutation of the node mapping's keys). -/
theorem claimC1 {V : Type} (ns : List (Node V))
    (hres : ResolvableNs ns) (hacy : AcyclicNs ns) :
    ∃ dag, DAG.init ns = .ok dag ∧
      ∀ context, ∃ res, dag.run context = .ok res ∧
        (res.map Prod.fst).Nodup ∧
        (res.map Prod.fst).Perm (dag.nodes.map Prod.fst) := by
  have hn := buildNodes_nodup ns
  have ha := acyclicM_of_acyclicNs hacy
  have hr := resolvableM_of_resolvableNs hres
  refine ⟨⟨buildNodes ns⟩, init_ok_of_checkCycles (checkCycles_ok_of ha hr), ?_⟩
  intro context
  obtain ⟨st', hst'⟩ := runLoop_ok hn ha hr ((buildNodes ns).length + 1) 0
    (initState context) (inv_initState _ _) (by rw [initState_done_length]; omega)
  obtain ⟨hinv', hlen', _⟩ := runLoop_inv hn _ 0 _ st' hst' (inv_initState _ _)
  refine ⟨st'.results, ?_, ?_, ?_⟩
  · show (runLoop (buildNodes ns) ((buildNodes ns).length + 1) 0 (initState context)).map
      (fun st => st.results) = .ok st'.results
    rw [hst']
    rfl
  · rw [hinv'.2.1, traceResults_map_fst]
    exact hinv'.2.2.2.1
  · rw [hinv'.2.1, traceResults_map_fst]
    exact inv_ids_perm_keys hinv' hlen'

/-- Witness for C1 at a concrete two-node acyclic graph. -/
theorem claimC1_witness :
    ∃ dag, DAG.init [Node.mk "a" (fun _ => (1 : Nat)) [], Node.mk "b" (fun _ => 2) ["a"]]
        = .ok dag ∧
      ∀ context, ∃ res, dag.run context = .ok res ∧
        (res.map Prod.fst).Nodup ∧
        (res.map Prod.fst).Perm (dag.nodes.map Prod.fst) :=
  claimC1 _ (by unfold ResolvableNs; decide)
    (acyclicNs_of_rank _ (fun s => if s = "a" then 0 else 1) (by decide))

/-- C9: for the empty node sequence, construction succeeds with the empty
mapping, and the run returns the empty result mapping for every initial
context, leaving the state exactly as it started (in particular the trace is
empty, so no work function was invoked) and raising no error. -/
theorem claimC9 {V : Type} (context : List (String × V)) :
    DAG.init ([] : List (Node V)) = .ok ⟨[]⟩ ∧
    (DAG.mk ([] : List (String × Node V))).run context = .ok [] ∧
    runLoop ([] : List (String × Node V)) 1 0 (initState context)
      = .ok (initState context) :=
  ⟨rfl, rfl, rfl⟩

/-- C7 counterexample: an input sequence with two nodes of id a, where the
surviving last node depends on a itself, has duplicate ids yet construction
fails with the cycle error instead of succeeding. -/
theorem claimC7_counterexample :
    ¬ (([Node.mk "a" (fun _ => (0 : Nat)) [],
        Node.mk "a" (fun _ => 0) ["a"]].map (fun n => n.id)).Nodup) ∧
    DAG.init [Node.mk "a" (fun _ => (0 : Nat)) [], Node.mk "a" (fun _ => 0) ["a"]]
      = .error .cycleDetected :=
  ⟨by decide, rfl⟩

/-- C7 amended: duplicate ids raise no error by themselves: the node mapping
keeps the last node written for each id (lookup returns the last matching
node of the input sequence), and construction succeeds exactly as for any
mapping that is acyclic with resolvable dependencies. -/
theorem claimC7 {V : Type} (ns : List (Node V))
    (hdup : ¬ ((ns.map (fun n => n.id)).Nodup))
    (ha : AcyclicM (buildNodes ns)) (hr : ResolvableM (buildNodes ns)) :
    DAG.init ns = .ok ⟨buildNodes ns⟩ ∧
    ∀ k, dlookup (buildNodes ns) k = ns.reverse.find? (fun n => n.id == k) :=
  ⟨init_ok_of_checkCycles (checkCycles_ok_of ha hr),
    fun k => dlookup_buildNodes ns k⟩

/-- Witness for C7 at a concrete input with a duplicated id. -/
theorem claimC7_witness :
    DAG.init [Node.mk "a" (fun _ => (1 : Nat)) [], Node.mk "a" (fun _ => 2) [],
        Node.mk "b" (fun _ => 3) ["a"]]
      = .ok ⟨buildNodes [Node.mk "a" (fun _ => (1 : Nat)) [], Node.mk "a" (fun _ => 2) [],
        Node.mk "b" (fun _ => 3) ["a"]]⟩ ∧
    dlookup (buildNodes [Node.mk "a" (fun _ => (1 : Nat)) [], Node.mk "a" (fun _ => 2) [],
        Node.mk "b" (fun _ => 3) ["a"]]) "a"
      = ([Node.mk "a" (fun _ => (1 : Nat)) [], Node.mk "a" (fun _ => 2) [],
        Node.mk "b" (fun _ => 3) ["a"]].reverse.find? (fun n => n.id == "a")) := by
  have h := claimC7 [Node.mk "a" (fun _ => (1 : Nat)) [], Node.mk "a" (fun _ => 2) [],
      Node.mk "b" (fun _ => 3) ["a"]]
    (by decide)
    (acyclicM_of_rank _ (fun s => if s = "a" then 0 else 1) (by decide))
    (by unfold ResolvableM; decide)
  exact ⟨h.1, h.2 "a"⟩

/-- C3 counterexample: a node set whose dependency relation contains a cycle
(b depends on b) but whose traversal first meets an unresolvable dependency
fails with the lookup KeyError, not with the cycle error. -/
theorem claimC3_counterexample :
    Relation.TransGen
      (edge (buildNodes [Node.mk "a" (fun _ => (0 : Nat)) ["ghost"],
        Node.mk "b" (fun _ => 0) ["b"]])) "b" "b" ∧
    DAG.init [Node.mk "a" (fun _ => (0 : Nat)) ["ghost"], Node.mk "b" (fun _ => 0) ["b"]]
      = .error (.keyError "ghost") :=
  ⟨Relation.TransGen.single ⟨Node.mk "b" (fun _ => 0) ["b"], rfl, by decide⟩, rfl⟩

/-- C3 amended: for every node set whose built mapping has resolvable
dependencies and a cyclic dependency relation, construction fails with the
cycle error; construction never calls any work function, so none is
invoked. -/
theorem claimC3 {V : Type} (ns : List (Node V))
    (hr : ResolvableM (buildNodes ns))
    (hcyc : ∃ a, Relation.TransGen (edge (buildNodes ns)) a a) :
    DAG.init ns = .error .cycleDetected := by
  obtain ⟨a, ha⟩ := hcyc
  cases hc : checkCycles (buildNodes ns) with
  | ok u =>
    cases u
    exact absurd ha (checkCycles_acyclic hc a)
  | error e =>
    cases e with
    | cycleDetected => exact init_error_of_checkCycles hc
    | keyError d => exact absurd hc (checkCycles_ne_keyErr hr d)
    | fuelExhausted => exact absurd hc (checkCycles_ne_fuel _)

/-- Witness for the amended C3 at a concrete self-referencing node. -/
theorem claimC3_witness :
    DAG.init [Node.mk "b" (fun _ => (0 : Nat)) ["b"]] = .error .cycleDetected :=
  claimC3 _ (by unfold ResolvableM; decide)
    ⟨"b", Relation.TransGen.single ⟨Node.mk "b" (fun _ => 0) ["b"], rfl, by decide⟩⟩

/-- C4 counterexample: a node set in which node b declares the missing
dependency ghost, yet construction fails with the cycle error, which names
no missing dependency id at all, refuting "fails with an UnknownDependency
error that names the missing dependency id". -/
theorem claimC4_counterexample :
    dlookup (buildNodes [Node.mk "a" (fun _ => (0 : Nat)) ["a"],
      Node.mk "b" (fun _ => 0) ["ghost"]]) "ghost" = none ∧
    "ghost" ∈ (Node.mk "b" (fun _ => (0 : Nat)) ["ghost"]).depends_on ∧
    DAG.init [Node.mk "a" (fun _ => (0 : Nat)) ["a"], Node.mk "b" (fun _ => 0) ["ghost"]]
      = .error .cycleDetected :=
  ⟨rfl, by decide, rfl⟩

/-- C4 amended: when the built mapping is acyclic and some node declares a
dependency id that resolves to no node, construction fails at construction
time with the dict-lookup KeyError carrying an unresolvable dependency id;
the code has no distinct UnknownDependency error, and with a cycle present
the cycle error can preempt the lookup failure. -/
theorem claimC4 {V : Type} (ns : List (Node V))
    (ha : AcyclicM (buildNodes ns))
    (hmiss : ∃ p ∈ buildNodes ns, ∃ d ∈ p.2.depends_on,
      dlookup (buildNodes ns) d = none) :
    ∃ d, DAG.init ns = .error (.keyError d) ∧ dlookup (buildNodes ns) d = none := by
  cases hc : checkCycles (buildNodes ns) with
  | ok u =>
    cases u
    exfalso
    obtain ⟨p, hp, d, hd, hnone⟩ := hmiss
    have hres := checkCycles_resolvable (buildNodes_nodup ns) hc p hp d hd
    rw [hnone] at hres
    exact Bool.noConfusion hres
  | error e =>
    cases e with
    | cycleDetected => exact absurd hc (checkCycles_ne_cycleErr ha)
    | keyError d =>
      exact ⟨d, init_error_of_checkCycles hc, checkCycles_keyErr_sound hc⟩
    | fuelExhausted => exact absurd hc (checkCycles_ne_fuel _)

/-- Witness for the amended C4 at a concrete node with a missing dependency. -/
theorem claimC4_witness :
    ∃ d, DAG.init [Node.mk "b" (fun _ => (0 : Nat)) ["ghost"]] = .error (.keyError d) ∧
      dlookup (buildNodes [Node.mk "b" (fun _ => (0 : Nat)) ["ghost"]]) d = none :=
  claimC4 _
    (acyclicM_of_rank _ (fun s => if s = "ghost" then 0 else 1) (by decide))
    ⟨("b", Node.mk "b" (fun _ => (0 : Nat)) ["ghost"]), List.mem_singleton.mpr rfl,
      "ghost", by decide, rfl⟩

/-- C6: for a graph that passed construction-time validation, the run loop's
no-progress branch is unreachable: DAG.run never returns the noProgress
error for any initial context. -/
theorem claimC6 {V : Type} (ns : List (Node V)) (dag : DAG V)
    (h : DAG.init ns = .ok dag) (context : List (String × V)) :
    dag.run context ≠ .error RunError.noProgress := by
  obtain ⟨hdag, hc⟩ := init_ok_elim h
  subst hdag
  have hn := buildNodes_nodup ns
  have ha := checkCycles_acyclic hc
  have hr := checkCycles_resolvable hn hc
  obtain ⟨st', hst'⟩ := runLoop_ok hn ha hr ((buildNodes ns).length + 1) 0
    (initState context) (inv_initState _ _) (by rw [initState_done_length]; omega)
  show ((runLoop (buildNodes ns) ((buildNodes ns).length + 1) 0 (initState context)).map
    (fun st => st.results)) ≠ .error RunError.noProgress
  rw [hst']
  exact fun hh => Except.noConfusion hh

/-- Witness for C6 at a concrete one-node graph. -/
theorem claimC6_witness :
    (DAG.mk [("a", Node.mk "a" (fun _ => (1 : Nat)) [])]).run []
      ≠ .error RunError.noProgress :=
  claimC6 [Node.mk "a" (fun _ => (1 : Nat)) []]
    (DAG.mk [("a", Node.mk "a" (fun _ => (1 : Nat)) [])]) rfl []

/-- C2: during any successful run of a validated graph, every recorded
invocation has each declared dependency of the invoked node already executed
strictly earlier (its id occurs among the trace ids before the invocation)
and present as a key of the context mapping passed to the work function. -/
theorem claimC2 {V : Type} (ns : List (Node V)) (dag : DAG V)
    (h : DAG.init ns = .ok dag) (context : List (String × V)) (st' : RunState V)
    (hrun : runLoop dag.nodes (dag.nodes.length + 1) 0 (initState context) = .ok st')
    (pre : List (TraceEntry V)) (e : TraceEntry V) (post : List (TraceEntry V))
    (hdecomp : st'.trace = pre ++ e :: post) (node : Node V)
    (hnode : dlookup dag.nodes e.nid = some node) :
    ∀ d ∈ node.depends_on, d ∈ traceIds pre ∧ d ∈ e.ctxArg.map Prod.fst := by
  obtain ⟨hdag, hc⟩ := init_ok_elim h
  subst hdag
  have hn := buildNodes_nodup ns
  obtain ⟨hinv', _, _⟩ := runLoop_inv hn _ 0 _ st' hrun (inv_initState _ _)
  obtain ⟨_, _, _, _, c5⟩ := hinv'
  obtain ⟨hctx, node2, hlk2, hdep, _⟩ := c5 pre e post hdecomp
  rw [hnode] at hlk2
  injection hlk2 with hnn
  intro d hd
  have hd2 : d ∈ node2.depends_on := hnn ▸ hd
  refine ⟨hdep d hd2, ?_⟩
  rw [hctx, mem_map_fst_mergeDicts, traceResults_map_fst]
  exact Or.inr (hdep d hd2)

/-- Witness for C2 at a concrete run in which node a depends on node b. -/
theorem claimC2_witness :
    "b" ∈ traceIds [(⟨0, "b", [], 7⟩ : TraceEntry Nat)] ∧
    "b" ∈ ((⟨0, "a", [("b", 7)], 1⟩ : TraceEntry Nat).ctxArg.map Prod.fst) := by
  have h := claimC2 [Node.mk "b" (fun _ => (7 : Nat)) [], Node.mk "a" (fun _ => 1) ["b"]]
    (DAG.mk (buildNodes [Node.mk "b" (fun _ => (7 : Nat)) [], Node.mk "a" (fun _ => 1) ["b"]]))
    rfl []
    ⟨[], [("b", 7), ("a", 1)], ["a", "b"], [⟨0, "b", [], 7⟩, ⟨0, "a", [("b", 7)], 1⟩]⟩
    rfl
    [⟨0, "b", [], 7⟩] ⟨0, "a", [("b", 7)], 1⟩ [] rfl
    (Node.mk "a" (fun _ => 1) ["b"]) rfl
  exact h "b" (by decide)

/-- C5 counterexample: two independent nodes run in the same pass (pass 0),
and the second invocation's context argument contains the first node's
output key "a" although the second node declares no dependency on it, so a
node's output is visible within the same pass without a declared
dependency. -/
theorem claimC5_counterexample :
    runLoop (buildNodes [Node.mk "a" (fun _ => (1 : Nat)) [], Node.mk "b" (fun _ => 2) []])
        3 0 (initState [])
      = .ok ⟨[], [("a", 1), ("b", 2)], ["b", "a"],
          [⟨0, "a", [], 1⟩, ⟨0, "b", [("a", 1)], 2⟩]⟩ ∧
    (⟨0, "a", [], (1 : Nat)⟩ : TraceEntry Nat).passNo
      = (⟨0, "b", [("a", 1)], 2⟩ : TraceEntry Nat).passNo ∧
    "a" ∈ ((⟨0, "b", [("a", 1)], (2 : Nat)⟩ : TraceEntry Nat).ctxArg.map Prod.fst) ∧
    "a" ∉ (Node.mk "b" (fun _ => (2 : Nat)) []).depends_on :=
  ⟨rfl, rfl, by decide, by decide⟩

/-- C5 amended: in the trace of a successful run, a node's output key is a
key of the context argument of every strictly later invocation — same pass
or later, with or without a declared dependency — and, when that key is not
in the initial context, it is not a key of the context argument of its own
invocation or of any earlier one. -/
theorem claimC5 {V : Type} (ns : List (Node V)) (dag : DAG V)
    (h : DAG.init ns = .ok dag) (context : List (String × V)) (st' : RunState V)
    (hrun : runLoop dag.nodes (dag.nodes.length + 1) 0 (initState context) = .ok st')
    (pre mid post : List (TraceEntry V)) (e1 e2 : TraceEntry V)
    (hdecomp : st'.trace = pre ++ e1 :: mid ++ e2 :: post) :
    e1.nid ∈ e2.ctxArg.map Prod.fst ∧
    (e2.nid ∉ context.map Prod.fst →
      e2.nid ∉ e1.ctxArg.map Prod.fst ∧ e2.nid ∉ e2.ctxArg.map Prod.fst) := by
  obtain ⟨hdag, hc⟩ := init_ok_elim h
  subst hdag
  have hn := buildNodes_nodup ns
  obtain ⟨hinv', _, _⟩ := runLoop_inv hn _ 0 _ st' hrun (inv_initState _ _)
  obtain ⟨_, _, _, c4, c5⟩ := hinv'
  have hdecompA : st'.trace = pre ++ e1 :: (mid ++ e2 :: post) := by
    rw [hdecomp, List.append_assoc, List.cons_append]
  obtain ⟨hctx2, _⟩ := c5 (pre ++ e1 :: mid) e2 post hdecomp
  obtain ⟨hctx1, _⟩ := c5 pre e1 (mid ++ e2 :: post) hdecompA
  have hids : traceIds st'.trace =
      traceIds pre ++ e1.nid :: (traceIds mid ++ e2.nid :: traceIds post) := by
    rw [hdecomp]
    simp [traceIds]
  constructor
  · rw [hctx2, mem_map_fst_mergeDicts, traceResults_map_fst]
    refine Or.inr ?_
    rw [traceIds_append, traceIds_cons]
    simp
  · intro hnc
    have hnodup := c4
    rw [hids] at hnodup
    constructor
    · rw [hctx1, mem_map_fst_mergeDicts, traceResults_map_fst]
      rintro (hin | hin)
      · exact hnc hin
      · have hdisj := List.disjoint_of_nodup_append hnodup
        exact hdisj hin (by simp)
    · rw [hctx2, mem_map_fst_mergeDicts, traceResults_map_fst]
      rintro (hin | hin)
      · exact hnc hin
      · have hnodup2 := c4
        have hids2 : traceIds st'.trace =
            (traceIds pre ++ e1.nid :: traceIds mid) ++ e2.nid :: traceIds post := by
          rw [hdecomp]
          simp [traceIds]
        rw [hids2] at hnodup2
        have hdisj := List.disjoint_of_nodup_append hnodup2
        have hin2 : e2.nid ∈ traceIds pre ++ e1.nid :: traceIds mid := by
          rw [traceIds_append, traceIds_cons] at hin
          exact hin
        exact hdisj hin2 (List.mem_cons_self _ _)

/-- Witness for the amended C5 at the same two independent nodes. -/
theorem claimC5_witness :
    "a" ∈ ((⟨0, "b", [("a", 1)], (2 : Nat)⟩ : TraceEntry Nat).ctxArg.map Prod.fst) ∧
    "b" ∉ ((⟨0, "a", [], (1 : Nat)⟩ : TraceEntry Nat).ctxArg.map Prod.fst) ∧
    "b" ∉ ((⟨0, "b", [("a", 1)], (2 : Nat)⟩ : TraceEntry Nat).ctxArg.map Prod.fst) := by
  have h := claimC5 [Node.mk "a" (fun _ => (1 : Nat)) [], Node.mk "b" (fun _ => 2) []]
    (DAG.mk (buildNodes [Node.mk "a" (fun _ => (1 : Nat)) [], Node.mk "b" (fun _ => 2) []]))
    rfl []
    ⟨[], [("a", 1), ("b", 2)], ["b", "a"], [⟨0, "a", [], 1⟩, ⟨0, "b", [("a", 1)], 2⟩]⟩
    rfl
    [] [] [] ⟨0, "a", [], 1⟩ ⟨0, "b", [("a", 1)], 2⟩ rfl
  exact ⟨h.1, (h.2 (by decide)).1, (h.2 (by decide)).2⟩

/-- C8: the run loop never changes the caller-supplied context binding: a
successful run returns a state whose context component equals the initial
context, and every work function is applied to the freshly built merge of
that context with the results accumulated before its invocation, not to the
live store. -/
theorem claimC8 {V : Type} (ns : List (Node V)) (dag : DAG V)
    (h : DAG.init ns = .ok dag) (context : List (String × V)) (st' : RunState V)
    (hrun : runLoop dag.nodes (dag.nodes.length + 1) 0 (initState context) = .ok st') :
    st'.context = context ∧
    ∀ pre e post, st'.trace = pre ++ e :: post →
      e.ctxArg = mergeDicts context (traceResults pre) := by
  obtain ⟨hdag, hc⟩ := init_ok_elim h
  subst hdag
  have hn := buildNodes_nodup ns
  obtain ⟨hinv', _, _⟩ := runLoop_inv hn _ 0 _ st' hrun (inv_initState _ _)
  exact ⟨hinv'.1, fun pre e post hd => (hinv'.2.2.2.2 pre e post hd).1⟩

/-- Witness for C8 at a concrete two-node run. -/
theorem claimC8_witness :
    (⟨[], [("b", 7), ("a", 1)], ["a", "b"],
      [⟨0, "b", [], 7⟩, ⟨0, "a", [("b", 7)], 1⟩]⟩ : RunState Nat).context = [] ∧
    (⟨0, "a", [("b", 7)], (1 : Nat)⟩ : TraceEntry Nat).ctxArg =
      mergeDicts [] (traceResults [(⟨0, "b", [], (7 : Nat)⟩ : TraceEntry Nat)]) := by
  have h := claimC8 [Node.mk "b" (fun _ => (7 : Nat)) [], Node.mk "a" (fun _ => 1) ["b"]]
    (DAG.mk (buildNodes [Node.mk "b" (fun _ => (7 : Nat)) [], Node.mk "a" (fun _ => 1) ["b"]]))
    rfl []
    ⟨[], [("b", 7), ("a", 1)], ["a", "b"], [⟨0, "b", [], 7⟩, ⟨0, "a", [("b", 7)], 1⟩]⟩
    rfl
  exact ⟨h.1, h.2 [⟨0, "b", [], 7⟩] ⟨0, "a", [("b", 7)], 1⟩ [] rfl⟩

/-- C10: the node mapping lists ids in the order of their first appearance in
the input sequence, and within every pass the executed node ids form a
sublist of that key order, so ready nodes execute in mapping order and a run
is the deterministic scan the embedding defines. -/
theorem claimC10 {V : Type} (ns : List (Node V)) (context : List (String × V)) :
    (buildNodes ns).map Prod.fst = firstOccur (ns.map (fun n => n.id)) ∧
    ∀ st', runLoop (buildNodes ns) ((buildNodes ns).length + 1) 0 (initState context)
        = .ok st' →
      ∀ q, ((st'.trace.filter (fun e => e.passNo == q)).map (fun e => e.nid)).Sublist
        ((buildNodes ns).map Prod.fst) := by
  refine ⟨buildNodes_map_fst ns, ?_⟩
  intro st' hrun q
  refine runLoop_pass_sublist (buildNodes ns) _ 0 (initState context) st' hrun ?_ ?_ q
  · intro e he
    exact absurd he (List.not_mem_nil e)
  · intro q2
    exact List.nil_sublist _

/-- Witness for C10 at a concrete two-node run, pass 0. -/
theorem claimC10_witness :
    ((([⟨0, "a", [], (1 : Nat)⟩, ⟨0, "b", [("a", 1)], 2⟩] : List (TraceEntry Nat)).filter
      (fun e => e.passNo == 0)).map (fun e => e.nid)).Sublist
      ((buildNodes [Node.mk "a" (fun _ => (1 : Nat)) [],
        Node.mk "b" (fun _ => 2) []]).map Prod.fst) := by
  have h := claimC10 [Node.mk "a" (fun _ => (1 : Nat)) [], Node.mk "b" (fun _ => 2) []] []
  exact h.2 ⟨[], [("a", 1), ("b", 2)], ["b", "a"],
    [⟨0, "a", [], 1⟩, ⟨0, "b", [("a", 1)], 2⟩]⟩ rfl 0
